import Mathlib

/-!
Verification of the timestamp-to-subtitle segmentation algorithm and the
orchestrator of `src/main.py` (a text-to-video script).  The segmenter
`create_subtitle_list` is embedded shallowly: Python floats become exact
rationals, the character sequence a `List Char`, and the one possible
runtime exception (an out-of-range list subscript) is made explicit by
returning `Option`: `none` models an uncaught `IndexError`.
-/

namespace MainPy

/-- The per-character alignment returned by the speech-synthesis client,
field names as in the Python dict built in `generate_voice_with_timestamps`. -/
structure Alignment where
  characters : List Char
  character_start_times_seconds : List ℚ
  character_end_times_seconds : List ℚ
deriving DecidableEq, Repr

/-- One element of the list returned by `create_subtitle_list`:
the Python tuple `(text, start_time, duration)`.  `text` is kept as the
list of characters joined by `"".join(words)`. -/
structure SubtitleEntry where
  text : List Char
  start_time : ℚ
  duration : ℚ
deriving DecidableEq, Repr

/-- Loop state of `create_subtitle_list`: the accumulators
`subtitles`, `words` and `start_time` (Python `None` becomes `none`). -/
structure SegState where
  subtitles : List SubtitleEntry
  words : List Char
  start_time : Option ℚ
deriving DecidableEq, Repr

/-- Python `str.isspace()` restricted to the ASCII whitespace characters
(the only ones that can matter here: it is always conjoined with a
comparison against the single space character). -/
def pyIsSpace (c : Char) : Bool :=
  c == ' ' || c == '\t' || c == '\n' || c == '\x0b' || c == '\x0c' || c == '\r'

/-- The word-separator test of line 93 of `main.py`:
`char.isspace() and char == " "`. -/
def isSep (c : Char) : Bool :=
  pyIsSpace c && c == ' '

/-- Python `str.strip()` on a list of characters: drop whitespace from
both ends.  Used for the truthiness test `text.strip()`. -/
def pyStrip (s : List Char) : List Char :=
  ((s.dropWhile pyIsSpace).reverse.dropWhile pyIsSpace).reverse

/-- The body of the `for i, char in enumerate(...)` loop of
`create_subtitle_list` (lines 92-110 of `main.py`).  `none` models the
`IndexError` raised by the unguarded subscript
`alignment["character_start_times_seconds"][i]` on line 95; every other
subscript in the loop is guarded by an explicit range check. -/
def stepChar (a : Alignment) (i : Nat) (c : Char) (st : SegState) : Option SegState :=
  if isSep c then
    match st.words, st.start_time with
    | [], _ => some st
    | _ :: _, none => some st
    | w :: ws, some start_time =>
      match (a.character_start_times_seconds)[i]? with
      | none => none
      | some end_time =>
        some { subtitles :=
                 if 0 < end_time - start_time ∧ pyStrip (w :: ws) ≠ []
                 then st.subtitles ++ [⟨w :: ws, start_time, end_time - start_time⟩]
                 else st.subtitles,
               words := [],
               start_time := none }
  else
    some { subtitles := st.subtitles,
           words := st.words ++ [c],
           start_time :=
             if st.start_time = none ∧ i < a.character_start_times_seconds.length
             then (a.character_start_times_seconds)[i]?
             else st.start_time }

/-- Run the loop of `create_subtitle_list` over the remaining characters
`cs`, the next one carrying index `i`. -/
def processFrom (a : Alignment) : Nat → List Char → SegState → Option SegState
  | _, [], st => some st
  | i, c :: cs, st =>
    match stepChar a i c st with
    | none => none
    | some st1 => processFrom a (i + 1) cs st1

/-- The full loop of `create_subtitle_list`, started on the empty state. -/
def processAll (a : Alignment) : Option SegState :=
  processFrom a 0 a.characters ⟨[], [], none⟩

/-- The trailing-word flush after the loop (lines 112-123 of `main.py`).
The Python `i` is the last loop index, `len(characters) - 1`; the guard
`i < len(...)` is rendered by the `[·]?` lookup, and when the loop never
ran (`characters == []`) the short-circuit on `words` means the undefined
`i` is never read, matched here by `words = []` taking the default arm. -/
def finalize (a : Alignment) (st : SegState) : List SubtitleEntry :=
  match st.words, st.start_time,
        (a.character_end_times_seconds)[a.characters.length - 1]? with
  | w :: ws, some start_time, some end_time =>
    if 0 < end_time - start_time ∧ pyStrip (w :: ws) ≠ []
    then st.subtitles ++ [⟨w :: ws, start_time, end_time - start_time⟩]
    else st.subtitles
  | _, _, _ => st.subtitles

/-- `create_subtitle_list` of `main.py` (lines 78-125).  `none` models an
uncaught `IndexError`. -/
def create_subtitle_list (a : Alignment) : Option (List SubtitleEntry) :=
  (processAll a).map (finalize a)

/-- The two conditions checked before an entry is appended (lines 100 and
122 of `main.py`). -/
def EntryOk (e : SubtitleEntry) : Prop :=
  0 < e.duration ∧ pyStrip e.text ≠ []

/-- Loop invariant for the provenance of emitted text: every emitted
entry's text is a space-free contiguous run of the input, the buffer
holds no space and, while a start time is recorded, the buffer is exactly
a run ending at the scan position; once the start time is unset with a
non-empty buffer, the start-times sequence has been exhausted. -/
def WInv (a : Alignment) (i : Nat) (st : SegState) : Prop :=
  (∀ e ∈ st.subtitles,
     (∃ pre post, a.characters = pre ++ e.text ++ post) ∧ ∀ ch ∈ e.text, ch ≠ ' ')
  ∧ (∀ ch ∈ st.words, ch ≠ ' ')
  ∧ (st.start_time ≠ none → ∃ pre, pre ++ st.words = a.characters.take i)
  ∧ (st.start_time = none →
      st.words = [] ∨ a.character_start_times_seconds.length ≤ i)

/-- Loop invariant for start-time monotonicity, for a non-decreasing
input start-times sequence: already-emitted entries are sorted, bounded
by the pending start time, and bounded by every start time still to
come. -/
def SInv (a : Alignment) (i : Nat) (st : SegState) : Prop :=
  st.subtitles.Pairwise (fun e1 e2 => e1.start_time ≤ e2.start_time)
  ∧ (∀ t, st.start_time = some t →
      (∀ e ∈ st.subtitles, e.start_time ≤ t) ∧
      ∀ j v, i ≤ j → (a.character_start_times_seconds)[j]? = some v → t ≤ v)
  ∧ ∀ e ∈ st.subtitles, ∀ j v, i ≤ j →
      (a.character_start_times_seconds)[j]? = some v → e.start_time ≤ v

/-- The externally observable steps of `__main__` (lines 177-240 of
`main.py`), in program order: the speech-synthesis API call, the subtitle
segmentation, the random template selection, loading/cropping/compositing
the background video, and the final rendered export. -/
inductive MainEvent
  | ttsCall
  | segmentCall
  | templateSelect
  | videoLoad
  | renderExport
deriving DecidableEq, Repr

/-- The fatal errors `__main__` can hit before the export completes: the
`IndexError` escaping `create_subtitle_list`, the explicit
`Exception("No templates found in templates/")` of line 201, and the
`ValueError` from `max()` over an empty sequence on line 216. -/
inductive MainError
  | indexError
  | noTemplates
  | emptyMax
deriving DecidableEq, Repr

/-- Python `max` over a list: raises (`none`) on an empty sequence. -/
def pyMax (l : List ℚ) : Option ℚ :=
  match l with
  | [] => none
  | x :: xs => some (xs.foldl max x)

/-- The orchestrator `__main__` (lines 189-235 of `main.py`), over the
alignment returned by the speech-synthesis call and the directory listing
of `templates/`, each external effect abstracted to an event.  The result
pairs the ordered list of steps completed before the run ends with the
fatal error that ended it, if any.  `random.choice` is abstracted to the
emptiness test that decides its `IndexError`. -/
def mainRun (a : Alignment) (templates : List String) :
    List MainEvent × Option MainError :=
  match create_subtitle_list a with
  | none => ([.ttsCall], some .indexError)
  | some subtitles =>
    if templates.isEmpty then
      ([.ttsCall, .segmentCall], some .noTemplates)
    else
      match pyMax (subtitles.map fun s => s.start_time + s.duration) with
      | none =>
        ([.ttsCall, .segmentCall, .templateSelect, .videoLoad], some .emptyMax)
      | some _ =>
        ([.ttsCall, .segmentCall, .templateSelect, .videoLoad, .renderExport], none)

/-- Exhaustive description of one loop step of `create_subtitle_list`:
either the character is not a separator and is buffered, or it is a
separator with no closable word in progress (no-op), or it is a separator
closing a word, where the unguarded subscript decides between an
`IndexError` and a (possibly discarded) emission. -/
theorem stepChar_cases (a : Alignment) (i : Nat) (c : Char) (st : SegState) :
    (isSep c = false ∧
      stepChar a i c st = some
        { subtitles := st.subtitles,
          words := st.words ++ [c],
          start_time :=
            if st.start_time = none ∧ i < a.character_start_times_seconds.length
            then (a.character_start_times_seconds)[i]?
            else st.start_time })
    ∨ (isSep c = true ∧ (st.words = [] ∨ st.start_time = none) ∧
        stepChar a i c st = some st)
    ∨ (isSep c = true ∧ st.words ≠ [] ∧ ∃ t, st.start_time = some t ∧
        ((a.character_start_times_seconds)[i]? = none ∧ stepChar a i c st = none
         ∨ ∃ v, (a.character_start_times_seconds)[i]? = some v ∧
             stepChar a i c st = some
               { subtitles :=
                   if 0 < v - t ∧ pyStrip st.words ≠ []
                   then st.subtitles ++ [⟨st.words, t, v - t⟩]
                   else st.subtitles,
                 words := [],
                 start_time := none })) := by
  cases hsep : isSep c with
  | false =>
    left
    exact ⟨rfl, by simp [stepChar, hsep]⟩
  | true =>
    cases hw : st.words with
    | nil =>
      right; left
      exact ⟨rfl, Or.inl rfl, by simp [stepChar, hsep, hw]⟩
    | cons w ws =>
      cases hst : st.start_time with
      | none =>
        right; left
        exact ⟨rfl, Or.inr rfl, by simp [stepChar, hsep, hw, hst]⟩
      | some t =>
        right; right
        refine ⟨rfl, by simp, t, rfl, ?_⟩
        cases hidx : (a.character_start_times_seconds)[i]? with
        | none =>
          left
          exact ⟨rfl, by simp [stepChar, hsep, hw, hst, hidx]⟩
        | some v =>
          right
          exact ⟨v, rfl, by simp [stepChar, hsep, hw, hst, hidx]⟩

theorem mem_ite_append {P : Prop} [Decidable P] {A : List SubtitleEntry} {x : SubtitleEntry}
    (hub : ∀ e ∈ A, EntryOk e) (hx : P → EntryOk x) :
    ∀ e ∈ (if P then A ++ [x] else A), EntryOk e := by
  by_cases hp : P
  · rw [if_pos hp]
    intro e he
    rcases List.mem_append.mp he with he | he
    · exact hub e he
    · obtain rfl : e = x := by simpa using he
      exact hx hp
  · rw [if_neg hp]
    exact hub

theorem stepChar_entryOk {a : Alignment} {i : Nat} {c : Char} {st st1 : SegState}
    (h : stepChar a i c st = some st1)
    (hub : ∀ e ∈ st.subtitles, EntryOk e) : ∀ e ∈ st1.subtitles, EntryOk e := by
  rcases stepChar_cases a i c st with ⟨-, heq⟩ | ⟨-, -, heq⟩ |
    ⟨-, -, t, -, ⟨-, heq⟩ | ⟨v, -, heq⟩⟩
  · rw [h] at heq
    obtain rfl : st1 = _ := by injection heq
    exact hub
  · rw [h] at heq
    obtain rfl : st1 = st := by injection heq
    exact hub
  · rw [h] at heq; cases heq
  · rw [h] at heq
    obtain rfl : st1 = _ := by injection heq
    exact mem_ite_append hub fun hg => ⟨hg.1, hg.2⟩

theorem processFrom_entryOk {a : Alignment} :
    ∀ {cs : List Char} {i : Nat} {st st1 : SegState},
      processFrom a i cs st = some st1 →
      (∀ e ∈ st.subtitles, EntryOk e) → ∀ e ∈ st1.subtitles, EntryOk e := by
  intro cs
  induction cs with
  | nil =>
    intro i st st1 h hub
    obtain rfl : st = st1 := by simpa [processFrom] using h
    exact hub
  | cons c cs ih =>
    intro i st st1 h hub
    rw [processFrom] at h
    cases hs : stepChar a i c st with
    | none => rw [hs] at h; cases h
    | some st2 =>
      rw [hs] at h
      exact ih h (stepChar_entryOk hs hub)

theorem finalize_entryOk {a : Alignment} {st : SegState}
    (hub : ∀ e ∈ st.subtitles, EntryOk e) :
    ∀ e ∈ finalize a st, EntryOk e := by
  unfold finalize
  split
  · exact mem_ite_append hub fun hg => ⟨hg.1, hg.2⟩
  · exact hub

/-- Unpack a successful run of `create_subtitle_list` into the loop part
and the trailing flush. -/
theorem create_eq_some {a : Alignment} {l : List SubtitleEntry}
    (h : create_subtitle_list a = some l) :
    ∃ s, processAll a = some s ∧ l = finalize a s := by
  unfold create_subtitle_list at h
  cases hp : processAll a with
  | none => rw [hp] at h; cases h
  | some s =>
    rw [hp] at h
    exact ⟨s, rfl, by simpa using h.symm⟩

/-- When the start-times sequence covers every character index, the loop
can never reach the unguarded subscript out of range, so it never fails. -/
theorem processFrom_total {a : Alignment}
    (hlen : a.characters.length ≤ a.character_start_times_seconds.length) :
    ∀ (cs : List Char) (i : Nat) (st : SegState),
      a.characters.drop i = cs → ∃ st1, processFrom a i cs st = some st1 := by
  intro cs
  induction cs with
  | nil => intro i st _; exact ⟨st, rfl⟩
  | cons c cs ih =>
    intro i st hdrop
    have hi : i < a.characters.length := by
      by_contra hge
      rw [List.drop_eq_nil_of_le (le_of_not_lt hge)] at hdrop
      cases hdrop
    obtain ⟨v0, hv⟩ : ∃ v0, (a.character_start_times_seconds)[i]? = some v0 :=
      ⟨_, List.getElem?_eq_getElem (lt_of_lt_of_le hi hlen)⟩
    have hdrop1 : a.characters.drop (i + 1) = cs := by
      have := congrArg List.tail hdrop
      simpa [List.tail_drop] using this
    rcases stepChar_cases a i c st with ⟨-, heq⟩ | ⟨-, -, heq⟩ |
      ⟨-, -, t, -, ⟨hnone, -⟩ | ⟨v, -, heq⟩⟩
    · obtain ⟨st1, h1⟩ := ih (i + 1) _ hdrop1
      refine ⟨st1, ?_⟩
      rw [processFrom, heq]
      exact h1
    · obtain ⟨st1, h1⟩ := ih (i + 1) _ hdrop1
      refine ⟨st1, ?_⟩
      rw [processFrom, heq]
      exact h1
    · rw [hnone] at hv; cases hv
    · obtain ⟨st1, h1⟩ := ih (i + 1) _ hdrop1
      refine ⟨st1, ?_⟩
      rw [processFrom, heq]
      exact h1

/-- A scan over separator-free characters never emits during the loop. -/
theorem processFrom_nosep {a : Alignment} :
    ∀ {cs : List Char} {i : Nat} {st st1 : SegState},
      (∀ c ∈ cs, isSep c = false) → processFrom a i cs st = some st1 →
      st1.subtitles = st.subtitles := by
  intro cs
  induction cs with
  | nil =>
    intro i st st1 _ h
    obtain rfl : st = st1 := by simpa [processFrom] using h
    rfl
  | cons c cs ih =>
    intro i st st1 hns h
    rw [processFrom] at h
    rcases stepChar_cases a i c st with ⟨-, heq⟩ | ⟨hsep, -, -⟩ | ⟨hsep, -, t, -, -⟩
    · rw [heq] at h
      have h2 := ih (fun d hd => hns d (List.mem_cons_of_mem c hd)) h
      simpa using h2
    · simp [hns c (List.mem_cons_self c cs)] at hsep
    · simp [hns c (List.mem_cons_self c cs)] at hsep

/-- The trailing flush appends at most one entry after the loop, and any
entry it appends ends exactly at the recorded end time of the last
character (whose index must be within the end-times sequence). -/
theorem finalize_eq_append (a : Alignment) (st : SegState) :
    ∃ rest, finalize a st = st.subtitles ++ rest ∧ rest.length ≤ 1 ∧
      ∀ e ∈ rest,
        (a.character_end_times_seconds)[a.characters.length - 1]? =
          some (e.start_time + e.duration) := by
  cases hw : st.words with
  | nil => exact ⟨[], by simp [finalize, hw], by simp, by simp⟩
  | cons w ws =>
    cases hst : st.start_time with
    | none => exact ⟨[], by simp [finalize, hw, hst], by simp, by simp⟩
    | some t =>
      cases hv : (a.character_end_times_seconds)[a.characters.length - 1]? with
      | none => exact ⟨[], by simp [finalize, hw, hst, hv], by simp, by simp⟩
      | some v =>
        by_cases hg : 0 < v - t ∧ pyStrip (w :: ws) ≠ []
        · refine ⟨[⟨w :: ws, t, v - t⟩], ?_, by simp, ?_⟩
          · simp only [finalize, hw, hst, hv]
            rw [if_pos hg]
          · intro e he
            obtain rfl : e = _ := by simpa using he
            simp only
            congr 1
            ring
        · refine ⟨[], ?_, by simp, by simp⟩
          simp only [finalize, hw, hst, hv]
          rw [if_neg hg]
          simp

theorem ne_space_of_not_isSep {c : Char} (h : isSep c = false) : c ≠ ' ' := by
  intro hc
  rw [hc] at h
  exact absurd h (by decide)

theorem getElem?_eq_of_drop {l : List Char} {i : Nat} {c : Char} {cs : List Char}
    (h : l.drop i = c :: cs) : l[i]? = some c := by
  have h0 := List.getElem?_drop l i 0
  rw [h] at h0
  simpa using h0.symm

theorem drop_succ_of_drop_cons {l : List Char} {i : Nat} {c : Char} {cs : List Char}
    (h : l.drop i = c :: cs) : l.drop (i + 1) = cs := by
  have := congrArg List.tail h
  simpa [List.tail_drop] using this

theorem stepChar_winv {a : Alignment} {i : Nat} {c : Char} {st st1 : SegState}
    (hc : a.characters[i]? = some c)
    (h : stepChar a i c st = some st1) (hinv : WInv a i st) : WInv a (i + 1) st1 := by
  obtain ⟨hsub, hwsp, hcont, hnone⟩ := hinv
  have htake : a.characters.take (i + 1) = a.characters.take i ++ [c] := by
    rw [List.take_succ, hc]
    rfl
  rcases stepChar_cases a i c st with ⟨hsep, heq⟩ | ⟨hsep, hid, heq⟩ |
    ⟨hsep, hw, t, hst, ⟨hn, hfail⟩ | ⟨v, hv, heq⟩⟩
  · rw [h] at heq
    obtain rfl : st1 = _ := by injection heq
    refine ⟨hsub, ?_, ?_, ?_⟩
    · intro ch hch
      rcases List.mem_append.mp hch with hch | hch
      · exact hwsp ch hch
      · obtain rfl : ch = c := by simpa using hch
        exact ne_space_of_not_isSep hsep
    · by_cases hcond : st.start_time = none ∧ i < a.character_start_times_seconds.length
      · intro _
        rcases hnone hcond.1 with hwnil | hlen
        · exact ⟨a.characters.take i, by rw [hwnil, htake]; simp⟩
        · exact absurd hcond.2 (not_lt_of_le hlen)
      · simp only [if_neg hcond]
        intro hne
        obtain ⟨pre, hpre⟩ := hcont hne
        exact ⟨pre, by rw [htake, ← hpre]; simp⟩
    · by_cases hcond : st.start_time = none ∧ i < a.character_start_times_seconds.length
      · simp only [if_pos hcond]
        intro habs
        have : (a.character_start_times_seconds)[i]?.isSome := by
          simp [List.getElem?_eq_getElem hcond.2]
        rw [habs] at this
        cases this
      · simp only [if_neg hcond]
        intro hstn
        have hlen : a.character_start_times_seconds.length ≤ i := by
          rcases not_and_or.mp hcond with hc1 | hc2
          · exact absurd hstn hc1
          · omega
        exact Or.inr (Nat.le_succ_of_le hlen)
  · rw [h] at heq
    obtain rfl : st1 = st := by injection heq
    refine ⟨hsub, hwsp, ?_, ?_⟩
    · intro hne
      rcases hid with hwnil | hstn
      · exact ⟨a.characters.take (i + 1), by rw [hwnil]; simp⟩
      · exact absurd hstn hne
    · intro hstn
      rcases hnone hstn with hwnil | hlen
      · exact Or.inl hwnil
      · exact Or.inr (Nat.le_succ_of_le hlen)
  · rw [h] at hfail; cases hfail
  · rw [h] at heq
    obtain rfl : st1 = _ := by injection heq
    refine ⟨?_, by simp, ?_, fun _ => Or.inl rfl⟩
    · intro e he
      simp only at he
      by_cases hg : 0 < v - t ∧ pyStrip st.words ≠ []
      · rw [if_pos hg] at he
        rcases List.mem_append.mp he with he | he
        · exact hsub e he
        · obtain rfl : e = _ := by simpa using he
          refine ⟨?_, hwsp⟩
          obtain ⟨pre, hpre⟩ := hcont (by rw [hst]; exact Option.some_ne_none t)
          refine ⟨pre, a.characters.drop i, ?_⟩
          conv_lhs => rw [← List.take_append_drop i a.characters]
          rw [← hpre]
      · rw [if_neg hg] at he
        exact hsub e he
    · intro hne
      exact absurd rfl hne

theorem processFrom_winv {a : Alignment} :
    ∀ {cs : List Char} {i : Nat} {st st1 : SegState},
      a.characters.drop i = cs → processFrom a i cs st = some st1 →
      WInv a i st → WInv a (i + cs.length) st1 := by
  intro cs
  induction cs with
  | nil =>
    intro i st st1 _ h hinv
    obtain rfl : st = st1 := by simpa [processFrom] using h
    simpa using hinv
  | cons c cs ih =>
    intro i st st1 hdrop h hinv
    rw [processFrom] at h
    cases hs : stepChar a i c st with
    | none => rw [hs] at h; cases h
    | some st2 =>
      rw [hs] at h
      have h2 := ih (drop_succ_of_drop_cons hdrop) h
        (stepChar_winv (getElem?_eq_of_drop hdrop) hs hinv)
      have harith : i + 1 + cs.length = i + (c :: cs).length := by
        simp
        omega
      rw [harith] at h2
      exact h2

/-- Any element of the flush result is an already-emitted entry or the
flushed trailing word, whose text is the final buffer and whose start
time is the pending start time. -/
theorem mem_finalize {a : Alignment} {st : SegState} {e : SubtitleEntry}
    (he : e ∈ finalize a st) :
    e ∈ st.subtitles ∨
      ∃ t v, st.start_time = some t ∧ e = ⟨st.words, t, v - t⟩ := by
  revert he
  cases hw : st.words with
  | nil => intro he; exact Or.inl (by simpa [finalize, hw] using he)
  | cons w ws =>
    cases hst : st.start_time with
    | none => intro he; exact Or.inl (by simpa [finalize, hw, hst] using he)
    | some t =>
      cases hv : (a.character_end_times_seconds)[a.characters.length - 1]? with
      | none => intro he; exact Or.inl (by simpa [finalize, hw, hst, hv] using he)
      | some v =>
        intro he
        by_cases hg : 0 < v - t ∧ pyStrip (w :: ws) ≠ []
        · have he2 : e ∈ st.subtitles ++ [⟨w :: ws, t, v - t⟩] := by
            have : finalize a st = st.subtitles ++ [⟨w :: ws, t, v - t⟩] := by
              simp only [finalize, hw, hst, hv]
              rw [if_pos hg]
            rwa [this] at he
          rcases List.mem_append.mp he2 with he3 | he3
          · exact Or.inl he3
          · refine Or.inr ⟨t, v, rfl, ?_⟩
            simpa using he3
        · refine Or.inl ?_
          have : finalize a st = st.subtitles := by
            simp only [finalize, hw, hst, hv]
            rw [if_neg hg]
          rwa [this] at he

theorem pairwise_le_nth {l : List ℚ} (hl : l.Pairwise (· ≤ ·)) {i j : Nat} {v w : ℚ}
    (hij : i ≤ j) (hi : l[i]? = some v) (hj : l[j]? = some w) : v ≤ w := by
  obtain ⟨hi2, hiv⟩ := List.getElem?_eq_some.mp hi
  obtain ⟨hj2, hjw⟩ := List.getElem?_eq_some.mp hj
  subst hiv hjw
  rcases Nat.lt_or_ge i j with hlt | hge
  · exact List.pairwise_iff_getElem.mp hl i j (lt_trans hlt hj2) hj2 hlt
  · obtain rfl : i = j := le_antisymm hij hge
    exact le_refl _

theorem stepChar_sinv {a : Alignment} {i : Nat} {c : Char} {st st1 : SegState}
    (hmono : a.character_start_times_seconds.Pairwise (· ≤ ·))
    (h : stepChar a i c st = some st1) (hinv : SInv a i st) : SInv a (i + 1) st1 := by
  obtain ⟨hpw, hpend, hfut⟩ := hinv
  rcases stepChar_cases a i c st with ⟨hsep, heq⟩ | ⟨hsep, hid, heq⟩ |
    ⟨hsep, hw, t, hst, ⟨hn, hfail⟩ | ⟨v, hv, heq⟩⟩
  · rw [h] at heq
    obtain rfl : st1 = _ := by injection heq
    refine ⟨hpw, ?_, ?_⟩
    · by_cases hcond : st.start_time = none ∧ i < a.character_start_times_seconds.length
      · simp only [if_pos hcond]
        intro t ht
        refine ⟨fun e he => hfut e he i t (le_refl i) ht, fun j v hj hv => ?_⟩
        exact pairwise_le_nth hmono (Nat.le_of_succ_le hj) ht hv
      · simp only [if_neg hcond]
        intro t ht
        refine ⟨(hpend t ht).1, fun j v hj hv => ?_⟩
        exact (hpend t ht).2 j v (Nat.le_of_succ_le hj) hv
    · intro e he j v hj hv
      exact hfut e he j v (Nat.le_of_succ_le hj) hv
  · rw [h] at heq
    obtain rfl : st1 = st := by injection heq
    refine ⟨hpw, ?_, ?_⟩
    · intro t ht
      refine ⟨(hpend t ht).1, fun j v hj hv => (hpend t ht).2 j v (Nat.le_of_succ_le hj) hv⟩
    · intro e he j v hj hv
      exact hfut e he j v (Nat.le_of_succ_le hj) hv
  · rw [h] at hfail; cases hfail
  · rw [h] at heq
    obtain rfl : st1 = _ := by injection heq
    have hbound := hpend t hst
    refine ⟨?_, ?_, ?_⟩
    · simp only
      by_cases hg : 0 < v - t ∧ pyStrip st.words ≠ []
      · rw [if_pos hg]
        refine List.pairwise_append.mpr ⟨hpw, by simp, ?_⟩
        intro e he b hb
        obtain rfl : b = _ := by simpa using hb
        exact hbound.1 e he
      · rw [if_neg hg]
        exact hpw
    · intro t2 ht2
      cases ht2
    · intro e he j v2 hj hv2
      simp only at he
      by_cases hg : 0 < v - t ∧ pyStrip st.words ≠ []
      · rw [if_pos hg] at he
        rcases List.mem_append.mp he with he2 | he2
        · exact hfut e he2 j v2 (Nat.le_of_succ_le hj) hv2
        · obtain rfl : e = _ := by simpa using he2
          exact hbound.2 j v2 (Nat.le_of_succ_le hj) hv2
      · rw [if_neg hg] at he
        exact hfut e he j v2 (Nat.le_of_succ_le hj) hv2

theorem processFrom_sinv {a : Alignment}
    (hmono : a.character_start_times_seconds.Pairwise (· ≤ ·)) :
    ∀ {cs : List Char} {i : Nat} {st st1 : SegState},
      processFrom a i cs st = some st1 →
      SInv a i st → ∃ k, SInv a k st1 := by
  intro cs
  induction cs with
  | nil =>
    intro i st st1 h hinv
    obtain rfl : st = st1 := by simpa [processFrom] using h
    exact ⟨i, hinv⟩
  | cons c cs ih =>
    intro i st st1 h hinv
    rw [processFrom] at h
    cases hs : stepChar a i c st with
    | none => rw [hs] at h; cases h
    | some st2 =>
      rw [hs] at h
      exact ih h (stepChar_sinv hmono hs hinv)

/-- Sortedness carries over the trailing flush, since every emitted entry
starts no later than the pending start time. -/
theorem finalize_pairwise {a : Alignment} {st : SegState}
    (hpw : st.subtitles.Pairwise (fun e1 e2 => e1.start_time ≤ e2.start_time))
    (hpend : ∀ t, st.start_time = some t → ∀ e ∈ st.subtitles, e.start_time ≤ t) :
    (finalize a st).Pairwise (fun e1 e2 => e1.start_time ≤ e2.start_time) := by
  cases hw : st.words with
  | nil => simpa [finalize, hw] using hpw
  | cons w ws =>
    cases hst : st.start_time with
    | none => simpa [finalize, hw, hst] using hpw
    | some t =>
      cases hv : (a.character_end_times_seconds)[a.characters.length - 1]? with
      | none => simpa [finalize, hw, hst, hv] using hpw
      | some v =>
        by_cases hg : 0 < v - t ∧ pyStrip (w :: ws) ≠ []
        · have : finalize a st = st.subtitles ++ [⟨w :: ws, t, v - t⟩] := by
            simp only [finalize, hw, hst, hv]
            rw [if_pos hg]
          rw [this]
          refine List.pairwise_append.mpr ⟨hpw, by simp, ?_⟩
          intro e he b hb
          obtain rfl : b = _ := by simpa using hb
          exact hpend t hst e he
        · have : finalize a st = st.subtitles := by
            simp only [finalize, hw, hst, hv]
            rw [if_neg hg]
          rw [this]
          exact hpw

/-- C1 (counterexample): with characters `['a', ' ']` and a start-times
sequence of length 1, the space closing the word `"a"` reaches the
unguarded subscript on line 95 of `main.py`, so the call raises
`IndexError` (modelled by `none`): `create_subtitle_list` is not
exception-free under every input shape. -/
theorem create_subtitle_list_index_error :
    create_subtitle_list ⟨['a', ' '], [0], []⟩ = none := by
  norm_num +decide [create_subtitle_list, processAll, processFrom, stepChar, finalize,
    isSep, pyIsSpace, pyStrip]

/-- C1 (amended): `create_subtitle_list` performs no I/O, and every index
lookup except the start-times lookup that closes a word at a space is
guarded; consequently, whenever the start-times sequence is at least as
long as the character sequence (the end-times sequence may have any
length, shorter included), no exception is raised. -/
theorem create_subtitle_list_total_of_start_times_cover (a : Alignment)
    (hlen : a.characters.length ≤ a.character_start_times_seconds.length) :
    ∃ l, create_subtitle_list a = some l := by
  obtain ⟨s, hs⟩ := processFrom_total hlen a.characters 0 ⟨[], [], none⟩ rfl
  refine ⟨finalize a s, ?_⟩
  unfold create_subtitle_list processAll
  rw [hs]
  rfl

/-- C1 (witness): the amended theorem applied to the alignment of
`"hi"` with a shorter end-times sequence. -/
theorem create_subtitle_list_total_of_start_times_cover_witness :
    ∃ l, create_subtitle_list ⟨['h', 'i'], [0, 1], [1]⟩ = some l :=
  create_subtitle_list_total_of_start_times_cover ⟨['h', 'i'], [0, 1], [1]⟩ (by simp)

/-- C2 (confirmed): every entry emitted by a successful run of
`create_subtitle_list` has strictly positive duration and text that is
non-empty after stripping whitespace. -/
theorem create_subtitle_list_entries_valid (a : Alignment) (l : List SubtitleEntry)
    (h : create_subtitle_list a = some l) :
    ∀ e ∈ l, 0 < e.duration ∧ pyStrip e.text ≠ [] := by
  obtain ⟨s, hs, rfl⟩ := create_eq_some h
  unfold processAll at hs
  exact fun e he => finalize_entryOk (processFrom_entryOk hs (by simp)) e he

/-- C2 (witness): instantiated on the alignment of `"hi "`. -/
theorem create_subtitle_list_entries_valid_witness :
    0 < (⟨['h', 'i'], 0, 2⟩ : SubtitleEntry).duration ∧
      pyStrip (⟨['h', 'i'], 0, 2⟩ : SubtitleEntry).text ≠ [] :=
  create_subtitle_list_entries_valid ⟨['h', 'i', ' '], [0, 1, 2], [1, 2, 3]⟩
    [⟨['h', 'i'], 0, 2⟩]
    (by norm_num +decide [create_subtitle_list, processAll, processFrom, stepChar,
      finalize, isSep, pyIsSpace, pyStrip])
    ⟨['h', 'i'], 0, 2⟩ (by simp)

/-- C3 (confirmed): the separator test of line 93 of `main.py` accepts
exactly the ASCII space character, so every other character — tab and
newline included — is buffered as an ordinary word character: the input
`"a\tb"` segments as the single word `"a\tb"`. -/
theorem isSep_iff_space :
    (∀ c : Char, isSep c = (c == ' ')) ∧
      create_subtitle_list ⟨['a', '\t', 'b'], [0, 1, 2], [1, 2, 3]⟩ =
        some [⟨['a', '\t', 'b'], 0, 3⟩] := by
  constructor
  · intro c
    unfold isSep pyIsSpace
    cases hc : c == ' ' <;> simp [hc]
  · norm_num +decide [create_subtitle_list, processAll, processFrom, stepChar, finalize,
      isSep, pyIsSpace, pyStrip]

/-- C4 (confirmed): a successful run is the loop's entries followed by at
most one flushed trailing entry — so the final word is emitted at most
once, with its end time (start time plus duration) equal to the recorded
end time of the last processed character, that index lying within the
end-times sequence — and an input with no separator at all yields at most
one entry. -/
theorem create_subtitle_list_trailing_flush (a : Alignment) (l : List SubtitleEntry)
    (h : create_subtitle_list a = some l) :
    (∃ s rest, processAll a = some s ∧ l = s.subtitles ++ rest ∧ rest.length ≤ 1 ∧
      ∀ e ∈ rest,
        (a.character_end_times_seconds)[a.characters.length - 1]? =
          some (e.start_time + e.duration)) ∧
    ((∀ c ∈ a.characters, isSep c = false) → l.length ≤ 1) := by
  obtain ⟨s, hs, rfl⟩ := create_eq_some h
  obtain ⟨rest, hfin, hlen, hrest⟩ := finalize_eq_append a s
  constructor
  · exact ⟨s, rest, hs, hfin, hlen, hrest⟩
  · intro hns
    have hsub : s.subtitles = (⟨[], [], none⟩ : SegState).subtitles := by
      unfold processAll at hs
      exact processFrom_nosep hns hs
    rw [hfin, hsub]
    simpa using hlen

/-- C4 (witness): the theorem applied to the separator-free alignment of
`"ab"`. -/
theorem create_subtitle_list_trailing_flush_witness :
    (∃ s rest, processAll ⟨['a', 'b'], [0, 1], [1, 2]⟩ = some s ∧
      [(⟨['a', 'b'], 0, 2⟩ : SubtitleEntry)] = s.subtitles ++ rest ∧ rest.length ≤ 1 ∧
      ∀ e ∈ rest, ([1, 2] : List ℚ)[(['a', 'b'] : List Char).length - 1]? =
          some (e.start_time + e.duration)) ∧
    ((∀ c ∈ (['a', 'b'] : List Char), isSep c = false) →
      ([(⟨['a', 'b'], 0, 2⟩ : SubtitleEntry)] : List SubtitleEntry).length ≤ 1) :=
  create_subtitle_list_trailing_flush ⟨['a', 'b'], [0, 1], [1, 2]⟩ [⟨['a', 'b'], 0, 2⟩]
    (by norm_num +decide [create_subtitle_list, processAll, processFrom, stepChar,
      finalize, isSep, pyIsSpace, pyStrip])

/-- C5 (counterexample): with the decreasing start-times sequence
`[5, 6, 1]` the two emitted entries start at `5` and then at `1`, so for
arbitrary inputs the output is not in non-decreasing start-time order. -/
theorem create_subtitle_list_unsorted :
    create_subtitle_list ⟨['a', ' ', 'b'], [5, 6, 1], [0, 0, 10]⟩ =
      some [⟨['a'], 5, 1⟩, ⟨['b'], 1, 9⟩] ∧
    ¬ ([⟨['a'], 5, 1⟩, ⟨['b'], 1, 9⟩] : List SubtitleEntry).Pairwise
        (fun e1 e2 => e1.start_time ≤ e2.start_time) := by
  constructor
  · norm_num +decide [create_subtitle_list, processAll, processFrom, stepChar, finalize,
      isSep, pyIsSpace, pyStrip]
  · intro hpw
    have h51 := (List.pairwise_cons.mp hpw).1 ⟨['b'], 1, 9⟩ (by simp)
    norm_num at h51

/-- C5 (amended): entries are returned in the order the words were
completed during the scan, and when the input start-times sequence is
non-decreasing — as the alignment data model specifies — the emitted
start times are non-decreasing. -/
theorem create_subtitle_list_sorted_of_monotone (a : Alignment) (l : List SubtitleEntry)
    (hmono : a.character_start_times_seconds.Pairwise (· ≤ ·))
    (h : create_subtitle_list a = some l) :
    l.Pairwise (fun e1 e2 => e1.start_time ≤ e2.start_time) := by
  obtain ⟨s, hs, rfl⟩ := create_eq_some h
  unfold processAll at hs
  have hinit : SInv a 0 ⟨[], [], none⟩ := by
    refine ⟨by simp, ?_, by simp⟩
    intro t ht
    cases ht
  obtain ⟨k, hpw, hpend, -⟩ := processFrom_sinv hmono hs hinit
  exact finalize_pairwise hpw fun t ht e he => (hpend t ht).1 e he

/-- C5 (witness): the amended theorem applied to the alignment of
`"hi "`. -/
theorem create_subtitle_list_sorted_of_monotone_witness :
    ([⟨['h', 'i'], 0, 2⟩] : List SubtitleEntry).Pairwise
      (fun e1 e2 => e1.start_time ≤ e2.start_time) :=
  create_subtitle_list_sorted_of_monotone ⟨['h', 'i', ' '], [0, 1, 2], [1, 2, 3]⟩
    [⟨['h', 'i'], 0, 2⟩]
    (by norm_num [List.pairwise_cons])
    (by norm_num +decide [create_subtitle_list, processAll, processFrom, stepChar,
      finalize, isSep, pyIsSpace, pyStrip])

/-- C6 (confirmed): entries whose computed duration is not strictly
positive are silently omitted — every emitted entry of a successful run
has positive duration — and the concrete input `"ab"` with identical
start and end times for both characters yields a successful run with no
entry at all. -/
theorem create_subtitle_list_drops_nonpositive :
    (∀ (a : Alignment) (l : List SubtitleEntry), create_subtitle_list a = some l →
      ∀ e ∈ l, 0 < e.duration) ∧
    create_subtitle_list ⟨['a', 'b'], [0, 0], [0, 0]⟩ = some [] := by
  constructor
  · intro a l h e he
    obtain ⟨s, hs, rfl⟩ := create_eq_some h
    unfold processAll at hs
    exact (finalize_entryOk (processFrom_entryOk hs (by simp)) e he).1
  · norm_num +decide [create_subtitle_list, processAll, processFrom, stepChar, finalize,
      isSep, pyIsSpace, pyStrip]

/-- C6 (witness): the positive-duration component applied to the
alignment of `"hi "`. -/
theorem create_subtitle_list_drops_nonpositive_witness :
    0 < (⟨['h', 'i'], 0, 2⟩ : SubtitleEntry).duration :=
  create_subtitle_list_drops_nonpositive.1 ⟨['h', 'i', ' '], [0, 1, 2], [1, 2, 3]⟩
    [⟨['h', 'i'], 0, 2⟩]
    (by norm_num +decide [create_subtitle_list, processAll, processFrom, stepChar,
      finalize, isSep, pyIsSpace, pyStrip])
    ⟨['h', 'i'], 0, 2⟩ (by simp)

/-- C7 (confirmed): an empty character sequence yields the empty list and
no error, whatever the timing sequences are. -/
theorem create_subtitle_list_empty_input (s e : List ℚ) :
    create_subtitle_list ⟨[], s, e⟩ = some [] := rfl

/-- C8 (counterexample): with an empty template directory, the fatal
"no templates" error is only raised after the speech-synthesis call has
already happened, so the check does not precede the expensive work. -/
theorem mainRun_tts_precedes_template_error :
    mainRun ⟨[], [], []⟩ [] = ([.ttsCall, .segmentCall], some .noTemplates) ∧
    MainEvent.ttsCall ∈ (mainRun ⟨[], [], []⟩ []).1 := by
  refine ⟨rfl, ?_⟩
  rw [show (mainRun ⟨[], [], []⟩ []).1 = [.ttsCall, .segmentCall] from rfl]
  simp

/-- C8 (amended): when the template directory is empty, the run fails
with the explicit "no templates" error after speech synthesis and
segmentation but before any video loading or rendering happens. -/
theorem mainRun_no_templates (a : Alignment) (l : List SubtitleEntry)
    (h : create_subtitle_list a = some l) :
    (mainRun a []).2 = some .noTemplates ∧
    ∀ ev ∈ (mainRun a []).1, ev = .ttsCall ∨ ev = .segmentCall := by
  unfold mainRun
  rw [h]
  simp

/-- C8 (witness): the amended theorem applied to the empty alignment. -/
theorem mainRun_no_templates_witness :
    (mainRun ⟨[], [], []⟩ []).2 = some .noTemplates ∧
    ∀ ev ∈ (mainRun ⟨[], [], []⟩ []).1, ev = .ttsCall ∨ ev = .segmentCall :=
  mainRun_no_templates ⟨[], [], []⟩ [] rfl

/-- C9 (confirmed): when segmentation yields zero valid entries and a
template is available, the overall-duration computation on line 216 is
`max` over an empty sequence, which has no result, and the run fails
there with no export happening. -/
theorem mainRun_empty_subtitles_fails (a : Alignment) (ts : List String)
    (h : create_subtitle_list a = some []) (hts : ts ≠ []) :
    pyMax (([] : List SubtitleEntry).map fun s => s.start_time + s.duration) = none ∧
    (mainRun a ts).2 = some .emptyMax ∧
    MainEvent.renderExport ∉ (mainRun a ts).1 := by
  refine ⟨rfl, ?_, ?_⟩ <;>
  · unfold mainRun
    rw [h]
    simp [List.isEmpty_iff, hts, pyMax]

/-- C9 (witness): applied to the empty alignment and a one-template
directory. -/
theorem mainRun_empty_subtitles_fails_witness :
    pyMax (([] : List SubtitleEntry).map fun s => s.start_time + s.duration) = none ∧
    (mainRun ⟨[], [], []⟩ ["bg.mp4"]).2 = some .emptyMax ∧
    MainEvent.renderExport ∉ (mainRun ⟨[], [], []⟩ ["bg.mp4"]).1 :=
  mainRun_empty_subtitles_fails ⟨[], [], []⟩ ["bg.mp4"] rfl (by simp)

/-- C10 (confirmed): every entry emitted by a successful run has text
equal to a contiguous run of input characters containing no ASCII space
(spaces are never buffered into a word). -/
theorem create_subtitle_list_text_runs (a : Alignment) (l : List SubtitleEntry)
    (h : create_subtitle_list a = some l) :
    ∀ e ∈ l, (∃ pre post, a.characters = pre ++ e.text ++ post) ∧
      ∀ ch ∈ e.text, ch ≠ ' ' := by
  obtain ⟨s, hs, rfl⟩ := create_eq_some h
  unfold processAll at hs
  have hinit : WInv a 0 ⟨[], [], none⟩ := by
    refine ⟨by simp, by simp, ?_, fun _ => Or.inl rfl⟩
    intro hne
    exact absurd rfl hne
  obtain ⟨hsub, hwsp, hcont, -⟩ := processFrom_winv rfl hs hinit
  intro e he
  rcases mem_finalize he with he2 | ⟨t, v, hst, rfl⟩
  · exact hsub e he2
  · refine ⟨?_, hwsp⟩
    obtain ⟨pre, hpre⟩ := hcont (by rw [hst]; exact Option.some_ne_none t)
    have h0 : a.characters.take (0 + (a.characters.drop 0).length) = a.characters := by
      simp
    rw [h0] at hpre
    refine ⟨pre, [], ?_⟩
    simp only [List.append_nil]
    exact hpre.symm

/-- C10 (witness): the theorem applied to the alignment of `"hi "`. -/
theorem create_subtitle_list_text_runs_witness :
    (∃ pre post, (['h', 'i', ' '] : List Char) =
        pre ++ (⟨['h', 'i'], 0, 2⟩ : SubtitleEntry).text ++ post) ∧
    ∀ ch ∈ (⟨['h', 'i'], 0, 2⟩ : SubtitleEntry).text, ch ≠ ' ' :=
  create_subtitle_list_text_runs ⟨['h', 'i', ' '], [0, 1, 2], [1, 2, 3]⟩
    [⟨['h', 'i'], 0, 2⟩]
    (by norm_num +decide [create_subtitle_list, processAll, processFrom, stepChar,
      finalize, isSep, pyIsSpace, pyStrip])
    ⟨['h', 'i'], 0, 2⟩ (by simp)

end MainPy

